import Mathlib

/-!
Shallow embedding of the `simd-blit` pixel-processing crate.

The crate has two interchangeable implementations of the same public
surface, selected at compile time: `src/sequential.rs` (scalar) and
`src/simd.rs` (vectorized).  Both are embedded below, in the
`Sequential` and `Simd` namespaces.  Shared data types (`EightPixels`,
`AlphaConfig`, `SsaaCoords`, the `PixelArray` trait) are declared once:
the two source files declare structurally identical types.

Machine integers are modelled as `Nat` with explicit reduction
`% 65536` (u16) and `% 2 ^ 64` (usize) at the operations where the Rust
code performs fixed-width arithmetic (release / `core::simd` semantics:
wrapping).  Bytes (`u8`) are modelled as `Fin 256`.  Rust panics
(assertion failures, out-of-bounds slice indexing, division by zero)
are modelled by returning `none` from an `Option`-valued function.
-/

/-- A `u8` value. -/
abbrev Byte := Fin 256

/-- The `as u8` truncating cast. -/
def byteOf (n : Nat) : Byte := ⟨n % 256, Nat.mod_lt n (by decide)⟩

/-- Wrapping `u16` addition. -/
def u16add (a b : Nat) : Nat := (a + b) % 65536

/-- Wrapping `u16` multiplication. -/
def u16mul (a b : Nat) : Nat := a * b % 65536

/-- Wrapping `u16` subtraction (faithful for operands below 65536). -/
def u16sub (a b : Nat) : Nat := (a % 65536 + (65536 - b % 65536)) % 65536

/-- `usize::MAX` on a 64-bit target. -/
def USIZEMAX : Nat := 2 ^ 64 - 1

/-- Array store `f[i] = v` (plain, computable function update). -/
def updateFn {ι α : Type} [DecidableEq ι] (f : ι → α) (i : ι) (v : α) : ι → α :=
  fun x => if x = i then v else f x

/-- A pack of 8 pixels: 32 `u16` lanes, lane `4*p + c` is channel `c`
of pixel `p`.  Models `EightPixels([u16; 32])` from `sequential.rs` and
`EightPixels(u16x32)` from `simd.rs`. -/
structure EightPixels where
  lane : Fin 32 → Nat

instance : DecidableEq EightPixels := fun a b =>
  decidable_of_iff (a.lane = b.lane) (by cases a; cases b; simp)

/-- Lane access by plain index (total; callers stay below 32). -/
def EightPixels.laneAt (p : EightPixels) (n : Nat) : Nat :=
  p.lane ⟨n % 32, Nat.mod_lt n (by decide)⟩

/-- `EightPixels::new`: widen up to 32 bytes into 16-bit lanes,
zero-filling past `src.len()`.  The slice expression
`array[..src.len()]` panics when `src.len() > 32`: modelled as `none`. -/
def EightPixels.new (src : List Byte) : Option EightPixels :=
  if _h : src.length ≤ 32 then
    some ⟨fun i => if h2 : i.val < src.length then (src.get ⟨i.val, h2⟩).val else 0⟩
  else
    none

/-- `EightPixels::write`: truncate each of the first `len` lanes to a
byte.  The slice expression `[..dst.len()]` panics when `len > 32`:
modelled as `none`. -/
def EightPixels.write (p : EightPixels) (len : Nat) : Option (List Byte) :=
  if len ≤ 32 then
    some ((List.range len).map fun k => byteOf (p.laneAt k))
  else
    none

/-- The five alpha configurations. -/
inductive AlphaConfig where
  | FirstByte
  | SecondByte
  | ThirdByte
  | FourthByte
  | None
deriving DecidableEq

/-- The `alpha_channel` match in `blend8` (both implementations map the
four byte positions to offsets 0..3; the `None` arm is unreachable
behind the `alpha_config != None` guard). -/
def alphaChannel : AlphaConfig → Fin 4
  | .FirstByte => 0
  | .SecondByte => 1
  | .ThirdByte => 2
  | .FourthByte => 3
  | .None => 0

/-- An `RGBA8` pixel (the `rgb` crate): four `u8` channels. -/
structure Rgba8 where
  r : Byte
  g : Byte
  b : Byte
  a : Byte
deriving DecidableEq

/-- Channel `c` of a pixel, widened to `Nat` (byte order `r,g,b,a`,
matching the lane order `4*p + c` used by both kernels). -/
def Rgba8.channel (px : Rgba8) : Fin 4 → Nat
  | ⟨0, _⟩ => px.r.val
  | ⟨1, _⟩ => px.g.val
  | ⟨2, _⟩ => px.b.val
  | ⟨3, _⟩ => px.a.val

/-- The `PixelArray` trait from `lib.rs`: 2D-sized, linearly indexed
pixel storage.  `width`, `height` and `length` are `usize` values, so
they are structurally below `2 ^ 64`. -/
structure PixelArray where
  get : Nat → Rgba8
  width : Nat
  height : Nat
  length : Nat
  width_lt : width < 2 ^ 64
  height_lt : height < 2 ^ 64
  length_lt : length < 2 ^ 64

/-- `SsaaCoords<SSAA_SQ>`: three parallel `K × 8` tables of `usize`
entries (output slot, source x, source y). -/
structure SsaaCoords (K : Nat) where
  src_o : Fin K → Fin 8 → Nat
  src_x : Fin K → Fin 8 → Nat
  src_y : Fin K → Fin 8 → Nat

instance {K : Nat} : DecidableEq (SsaaCoords K) := fun a b =>
  decidable_of_iff (a.src_o = b.src_o ∧ a.src_x = b.src_x ∧ a.src_y = b.src_y)
    (by cases a; cases b; simp)

/-- `SsaaCoords::new`: every field starts at `usize::MAX`. -/
def SsaaCoords.new (K : Nat) : SsaaCoords K :=
  ⟨fun _ _ => USIZEMAX, fun _ _ => USIZEMAX, fun _ _ => USIZEMAX⟩

/-- `SsaaCoords::set(pixel, sub_pixel, x, y)`: `assert!(pixel < 8)`,
then write `pixel`, `x`, `y` at `[sub_pixel][pixel]` in the three
tables.  A failed assertion, or `sub_pixel >= K` (an out-of-bounds
index on `self.src_o[sub_pixel]`, hit before any table is written),
panics: modelled as `none`. -/
def SsaaCoords.set {K : Nat} (c : SsaaCoords K) (pixel sub_pixel x y : Nat) :
    Option (SsaaCoords K) :=
  if hp : pixel < 8 then
    if hs : sub_pixel < K then
      some
        { src_o := updateFn c.src_o ⟨sub_pixel, hs⟩
            (updateFn (c.src_o ⟨sub_pixel, hs⟩) ⟨pixel, hp⟩ pixel)
          src_x := updateFn c.src_x ⟨sub_pixel, hs⟩
            (updateFn (c.src_x ⟨sub_pixel, hs⟩) ⟨pixel, hp⟩ x)
          src_y := updateFn c.src_y ⟨sub_pixel, hs⟩
            (updateFn (c.src_y ⟨sub_pixel, hs⟩) ⟨pixel, hp⟩ y) }
    else none
  else none

/-- The wrapped linear source index `src_y * src_w + src_x` (`usize`
arithmetic) of entry `(i, j)`. -/
def srcIndex {K : Nat} (c : SsaaCoords K) (src : PixelArray) (i : Fin K) (j : Fin 8) : Nat :=
  (c.src_y i j * src.width + c.src_x i j) % 2 ^ 64

/-- The bounds check of `ssaa8` (identical in both implementations):
`usable_x & usable_y & usable_l`. -/
def usable {K : Nat} (c : SsaaCoords K) (src : PixelArray) (i : Fin K) (j : Fin 8) : Bool :=
  (decide (c.src_x i j < src.width) && decide (c.src_y i j < src.height))
    && decide (srcIndex c src i j < src.length)

/-- The output slot owning lane `l` (lane group `l / 4`). -/
def slotOf (l : Fin 32) : Fin 8 := ⟨l.val / 4, by have := l.isLt; omega⟩

/-- The channel of lane `l` within its pixel (`l % 4`). -/
def chOf (l : Fin 32) : Fin 4 := ⟨l.val % 4, by have := l.isLt; omega⟩

/-- Fail-fast left fold: the loop bodies of `ssaa8` threaded through
the panic (`Option`) monad. -/
def foldOpt {σ α : Type} (f : σ → α → Option σ) : σ → List α → Option σ
  | s, [] => some s
  | s, a :: l =>
    match f s a with
    | none => none
    | some t => foldOpt f t l

/-- The per-slot divisor of the averaging phase, as written in the
source: an `if true` toggle between the uniform divisor `SSAA_SQ as
u16` ("better perf but some weird line SouthEast") and the dead
count-based branch. -/
def ssaaDivisor (K cnt : Nat) : Nat :=
  if true then
    K % 65536
  else
    match cnt with
    | 0 => 1
    | n => n

namespace Sequential

/-- The lane loop of `blend8` in `sequential.rs` (non-`None` branch):
for each lane `i`, with `p = i & !3`,
`result[i] = (src[i] * src_a + dst[i] * dst_a) / 255` in `u16`
arithmetic, where `src_a = src[p + alpha_channel]` and
`dst_a = 255 - src_a`. -/
def blend8core (src dstp : EightPixels) (cfg : AlphaConfig) : EightPixels :=
  ⟨fun i =>
    let p := 4 * (i.val / 4)
    let ac := alphaChannel cfg
    let src_a := src.lane ⟨p + ac.val, by have h1 := ac.isLt; have h2 := i.isLt; omega⟩
    let dst_a := u16sub 255 src_a
    u16add (u16mul (src.lane i) src_a) (u16mul (dstp.lane i) dst_a) / 255⟩

/-- `blend8` from `sequential.rs`: blend (or copy, for `None`) `src`
over the byte slice `dst`, then write the first `dst.len()` lanes
back.  Returns the new contents of `dst`. -/
def blend8 (src : EightPixels) (dst : List Byte) (cfg : AlphaConfig) :
    Option (List Byte) :=
  if cfg ≠ AlphaConfig.None then
    match EightPixels.new dst with
    | none => none
    | some dstp => (blend8core src dstp cfg).write dst.length
  else
    src.write dst.length

/-- One iteration of the `ssaa8` accumulation loop in `sequential.rs`:
if entry `(i, j)` is usable, add the sampled pixel channel-wise into the
pack group `result.as_rgba_mut()[src_o]` (panic — `none` — when
`src_o >= 8`) and bump `ssaa_px[src_o]`. -/
def accEntry {K : Nat} (c : SsaaCoords K) (src : PixelArray)
    (st : (Fin 32 → Nat) × (Fin 8 → Nat)) (i : Fin K) (j : Fin 8) :
    Option ((Fin 32 → Nat) × (Fin 8 → Nat)) :=
  if usable c src i j then
    let o := c.src_o i j
    if ho : o < 8 then
      let px := src.get (srcIndex c src i j)
      some
        (fun l => if slotOf l = ⟨o, ho⟩ then u16add (st.1 l) (px.channel (chOf l)) else st.1 l,
         updateFn st.2 ⟨o, ho⟩ ((st.2 ⟨o, ho⟩ + 1) % 65536))
    else none
  else some st

/-- The accumulation phase of `ssaa8` in `sequential.rs`: the loop nest
`for i in 0..SSAA_SQ { for j in 0..8 { ... } }` threaded from state
`st` (pack lanes, `ssaa_px` counts). -/
def accumulate {K : Nat} (c : SsaaCoords K) (src : PixelArray)
    (st : (Fin 32 → Nat) × (Fin 8 → Nat)) : Option ((Fin 32 → Nat) × (Fin 8 → Nat)) :=
  foldOpt (fun st2 i => foldOpt (fun st3 j => accEntry c src st3 i j) st2 (List.finRange 8))
    st (List.finRange K)

/-- `ssaa8` from `sequential.rs`: start from `EightPixels::new(&[])`,
accumulate over `i in 0..SSAA_SQ`, `j in 0..8`, then divide every lane
by the divisor (division by zero — `SSAA_SQ as u16 == 0` — panics:
`none`). -/
def ssaa8 {K : Nat} (c : SsaaCoords K) (src : PixelArray) : Option EightPixels :=
  match EightPixels.new [] with
  | none => none
  | some init =>
    match accumulate c src (init.lane, fun _ => 0) with
    | none => none
    | some (pack, cnts) =>
      if K % 65536 = 0 then none
      else some ⟨fun l => pack l / ssaaDivisor K (cnts (slotOf l))⟩

end Sequential

namespace Simd

/-- The vector body of `blend8` in `simd.rs` (non-`None` branch), lane
by lane.  `simd_swizzle!(src, gen_swizzle(b))` places
`src[b + (i & !3)]` in lane `i`; then
`result = (src * src_a + dst * dst_a) / splat(255)` with wrapping
`u16x32` arithmetic. -/
def blend8core (src dstp : EightPixels) (cfg : AlphaConfig) : EightPixels :=
  ⟨fun i =>
    let b := alphaChannel cfg
    let src_a := src.lane ⟨b.val + 4 * (i.val / 4), by have h1 := b.isLt; have h2 := i.isLt; omega⟩
    let dst_a := u16sub 255 src_a
    u16add (u16mul (src.lane i) src_a) (u16mul (dstp.lane i) dst_a) / 255⟩

/-- `blend8` from `simd.rs`. -/
def blend8 (src : EightPixels) (dst : List Byte) (cfg : AlphaConfig) :
    Option (List Byte) :=
  if cfg ≠ AlphaConfig.None then
    match EightPixels.new dst with
    | none => none
    | some dstp => (blend8core src dstp cfg).write dst.length
  else
    src.write dst.length

/-- One iteration of the `ssaa8` accumulation loop in `simd.rs`: the
per-row usable mask is computed with vector compares (lane-wise, the
same predicate as the scalar path) and the gather loop adds the sampled
pixel into `src_sum[src_o[j]]` (panic — `none` — when `src_o[j] >= 8`)
and bumps `ssaa_px[src_o[j]]`. -/
def accEntry {K : Nat} (c : SsaaCoords K) (src : PixelArray)
    (st : (Fin 8 → Fin 4 → Nat) × (Fin 8 → Nat)) (i : Fin K) (j : Fin 8) :
    Option ((Fin 8 → Fin 4 → Nat) × (Fin 8 → Nat)) :=
  if usable c src i j then
    let o := c.src_o i j
    if ho : o < 8 then
      let px := src.get (srcIndex c src i j)
      some
        (fun o2 ch => if o2 = ⟨o, ho⟩ then u16add (st.1 o2 ch) (px.channel ch) else st.1 o2 ch,
         updateFn st.2 ⟨o, ho⟩ ((st.2 ⟨o, ho⟩ + 1) % 65536))
    else none
  else some st

/-- The accumulation phase of `ssaa8` in `simd.rs`: the loop nest over
`i in 0..SSAA_SQ`, `j in 0..8` threaded from state `st`
(`src_sum: [u16x4; 8]`, `ssaa_px` counts). -/
def accumulate {K : Nat} (c : SsaaCoords K) (src : PixelArray)
    (st : (Fin 8 → Fin 4 → Nat) × (Fin 8 → Nat)) :
    Option ((Fin 8 → Fin 4 → Nat) × (Fin 8 → Nat)) :=
  foldOpt (fun st2 i => foldOpt (fun st3 j => accEntry c src st3 i j) st2 (List.finRange 8))
    st (List.finRange K)

/-- `ssaa8` from `simd.rs`: accumulate into `src_sum: [u16x4; 8]` over
`i in 0..SSAA_SQ`, `j in 0..8`, then build the result pack group by
group, dividing by the divisor (division by zero panics: `none`). -/
def ssaa8 {K : Nat} (c : SsaaCoords K) (src : PixelArray) : Option EightPixels :=
  match accumulate c src (fun _ _ => 0, fun _ => 0) with
  | none => none
  | some (sums, cnts) =>
    if K % 65536 = 0 then none
    else some ⟨fun l => sums (slotOf l) (chOf l) / ssaaDivisor K (cnts (slotOf l))⟩

end Simd

/-! ### Specification-side observation functions -/

/-- All 32 lane values of a pack, as a list (observation helper). -/
def EightPixels.toList (p : EightPixels) : List Nat := List.ofFn p.lane

/-- Reading byte `k` of a byte slice as an `EightPixels` does: the byte
value below the length, zero past it. -/
def byteAt (dst : List Byte) (k : Nat) : Nat := (dst[k]?.map Fin.val).getD 0

/-- The alpha factor `blend8` uses for lane `k`: the lane at
`(k & !3) + alpha_index(cfg)` of the source pack. -/
def specAlpha (src : EightPixels) (cfg : AlphaConfig) (k : Nat) : Nat :=
  src.laneAt (4 * (k / 4) + (alphaChannel cfg).val)

/-- The data invariant of `SsaaCoords` values constructible through the
public interface (`new` then any `set` calls): each `src_o` entry is
either the column index it lives in or the untouched sentinel (in which
case `src_x`/`src_y` are also the sentinel). -/
def SsaaInv {K : Nat} (c : SsaaCoords K) : Prop :=
  ∀ i j, c.src_o i j = j.val ∨
    (c.src_o i j = USIZEMAX ∧ c.src_x i j = USIZEMAX ∧ c.src_y i j = USIZEMAX)

instance {K : Nat} (c : SsaaCoords K) : Decidable (SsaaInv c) := by
  unfold SsaaInv; infer_instance

/-- The `SsaaCoords` values obtainable in Rust: `new`, followed by any
sequence of non-panicking `set` calls. -/
inductive Reachable {K : Nat} : SsaaCoords K → Prop where
  | new : Reachable (SsaaCoords.new K)
  | set (c c' : SsaaCoords K) (pixel sub_pixel x y : Nat) :
      Reachable c → c.set pixel sub_pixel x y = some c' → Reachable c'

/-- The subpixel rows whose entry in column `o` passes the bounds
check. -/
def slotSamples {K : Nat} (c : SsaaCoords K) (src : PixelArray) (o : Fin 8) : List (Fin K) :=
  (List.finRange K).filter fun i => usable c src i o

/-- Number of usable samples feeding output slot `o`. -/
def slotCount {K : Nat} (c : SsaaCoords K) (src : PixelArray) (o : Fin 8) : Nat :=
  (slotSamples c src o).length

/-- Mathematical (unwrapped) sum of channel `ch` over the usable
samples feeding output slot `o`. -/
def slotSum {K : Nat} (c : SsaaCoords K) (src : PixelArray) (o : Fin 8) (ch : Fin 4) : Nat :=
  ((slotSamples c src o).map fun i => (src.get (srcIndex c src i o)).channel ch).sum

/-! ### Concrete test vectors (for witnesses and counterexamples) -/

/-- A pack holding eight copies of one pixel `(r, g, b, a)`. -/
def packOfPixel (r g b a : Nat) : EightPixels :=
  ⟨fun i => [r, g, b, a].get ⟨i.val % 4, Nat.mod_lt _ (by decide)⟩⟩

/-- Eight opaque black RGBA pixels as a byte slice. -/
def wDstOpaque : List Byte := (List.replicate 8 ([0, 0, 0, 255] : List Byte)).flatten

/-- A 2×2 source image whose every pixel is `(40, 80, 120, 160)`. -/
def wSrc22 : PixelArray :=
  ⟨fun _ => ⟨40, 80, 120, 160⟩, 2, 2, 4, by decide, by decide, by decide⟩

/-- A `K = 4` coordinate table: slot 0 receives three in-bounds samples
at `(0, 0)`, every other entry is out of bounds (all `src_o` entries
point at their own column, as `set` always leaves them). -/
def wCoords3 : SsaaCoords 4 :=
  ⟨fun _ j => j.val,
   fun i j => if j.val = 0 ∧ i.val < 3 then 0 else USIZEMAX,
   fun i j => if j.val = 0 ∧ i.val < 3 then 0 else USIZEMAX⟩

/-- A 1×1 all-white source image. -/
def cexSrcWhite : PixelArray :=
  ⟨fun _ => ⟨255, 255, 255, 255⟩, 1, 1, 1, by decide, by decide, by decide⟩

/-- A `K = 258` coordinate table with all 258 subpixel samples of
slot 0 in bounds at `(0, 0)` and every other slot out of bounds. -/
def cexCoords258 : SsaaCoords 258 :=
  ⟨fun _ j => j.val,
   fun _ j => if j.val = 0 then 0 else USIZEMAX,
   fun _ j => if j.val = 0 then 0 else USIZEMAX⟩

/-- A trivial 1×1 black source image. -/
def cexSrcBlack : PixelArray :=
  ⟨fun _ => ⟨0, 0, 0, 0⟩, 1, 1, 1, by decide, by decide, by decide⟩

/-- Like `wSrc22` below the length bound, but with junk pixels at
out-of-range indices (for the frame-property witness). -/
def wSrc22junk : PixelArray :=
  ⟨fun idx => if idx < 4 then ⟨40, 80, 120, 160⟩ else ⟨9, 9, 9, 9⟩,
   2, 2, 4, by decide, by decide, by decide⟩

/-! ### Theorems -/

@[ext] theorem EightPixels.ext {a b : EightPixels} (h : ∀ i, a.lane i = b.lane i) : a = b := by
  cases a; cases b; simp only [EightPixels.mk.injEq]; funext i; exact h i

theorem u16sub_255 {a : Nat} (h : a ≤ 255) : u16sub 255 a = 255 - a := by
  unfold u16sub; omega

theorem u16mul_eq {a b : Nat} (h : a * b < 65536) : u16mul a b = a * b := Nat.mod_eq_of_lt h

theorem u16add_eq {a b : Nat} (h : a + b < 65536) : u16add a b = a + b := Nat.mod_eq_of_lt h

theorem byteOf_val {v : Nat} (h : v ≤ 255) : (byteOf v).val = v := by
  unfold byteOf; simp only []; omega

theorem byteAt_le (dst : List Byte) (k : Nat) : byteAt dst k ≤ 255 := by
  unfold byteAt
  cases h : dst[k]? with
  | none => simp
  | some b => simpa using Nat.le_of_lt_succ b.isLt

theorem EightPixels.laneAt_lt (p : EightPixels) {k : Nat} (h : k < 32) :
    p.laneAt k = p.lane ⟨k, h⟩ := by
  unfold EightPixels.laneAt
  congr 1
  exact Fin.ext (Nat.mod_eq_of_lt h)

theorem EightPixels.new_eq {src : List Byte} (h : src.length ≤ 32) :
    EightPixels.new src = some ⟨fun i => byteAt src i.val⟩ := by
  unfold EightPixels.new
  rw [dif_pos h]
  congr 1
  ext i
  by_cases h2 : i.val < src.length
  · simp [byteAt, dif_pos h2, List.getElem?_eq_getElem h2]
  · have h3 : src.length ≤ i.val := by omega
    simp [byteAt, dif_neg h2, List.getElem?_eq_none h3]

theorem EightPixels.write_eq (p : EightPixels) {len : Nat} (h : len ≤ 32) :
    p.write len = some ((List.range len).map fun k => byteOf (p.laneAt k)) := if_pos h

theorem specAlpha_le {src : EightPixels} (hs : ∀ i, src.lane i ≤ 255) (cfg : AlphaConfig)
    (k : Nat) : specAlpha src cfg k ≤ 255 := by
  unfold specAlpha EightPixels.laneAt; exact hs _

theorem Sequential.blend8core_lane (src dstp : EightPixels) (cfg : AlphaConfig) (i : Fin 32) :
    (Sequential.blend8core src dstp cfg).lane i =
      u16add (u16mul (src.lane i) (specAlpha src cfg i.val))
        (u16mul (dstp.lane i) (u16sub 255 (specAlpha src cfg i.val))) / 255 := by
  have hb : 4 * (i.val / 4) + (alphaChannel cfg).val < 32 := by
    have := i.isLt; have := (alphaChannel cfg).isLt; omega
  unfold Sequential.blend8core specAlpha
  rw [EightPixels.laneAt_lt src hb]

theorem blend8core_simd_eq_seq (src dstp : EightPixels) (cfg : AlphaConfig) :
    Simd.blend8core src dstp cfg = Sequential.blend8core src dstp cfg := by
  ext i
  have h1 := (alphaChannel cfg).isLt
  have h2 := i.isLt
  unfold Simd.blend8core Sequential.blend8core
  dsimp only
  rw [show (⟨(alphaChannel cfg).val + 4 * (i.val / 4), by omega⟩ : Fin 32) =
      ⟨4 * (i.val / 4) + (alphaChannel cfg).val, by omega⟩ from Fin.ext (Nat.add_comm _ _)]

theorem Sequential.blend8core_lane_eq (src dstp : EightPixels) (cfg : AlphaConfig)
    (hs : ∀ i, src.lane i ≤ 255) (hd : ∀ i, dstp.lane i ≤ 255) (i : Fin 32) :
    (Sequential.blend8core src dstp cfg).lane i =
      (src.lane i * specAlpha src cfg i.val +
        dstp.lane i * (255 - specAlpha src cfg i.val)) / 255 := by
  have ha : specAlpha src cfg i.val ≤ 255 := specAlpha_le hs cfg i.val
  rw [Sequential.blend8core_lane, u16sub_255 ha]
  have hx : src.lane i * specAlpha src cfg i.val ≤ 255 * specAlpha src cfg i.val :=
    Nat.mul_le_mul_right _ (hs i)
  have hy : dstp.lane i * (255 - specAlpha src cfg i.val) ≤
      255 * (255 - specAlpha src cfg i.val) :=
    Nat.mul_le_mul_right _ (hd i)
  have h1 : src.lane i * specAlpha src cfg i.val < 65536 := by omega
  have h2 : dstp.lane i * (255 - specAlpha src cfg i.val) < 65536 := by omega
  have h3 : src.lane i * specAlpha src cfg i.val +
      dstp.lane i * (255 - specAlpha src cfg i.val) < 65536 := by omega
  rw [u16mul_eq h1, u16mul_eq h2, u16add_eq h3]

theorem Sequential.blend8core_lane_le (src dstp : EightPixels) (cfg : AlphaConfig)
    (hs : ∀ i, src.lane i ≤ 255) (hd : ∀ i, dstp.lane i ≤ 255) (i : Fin 32) :
    (Sequential.blend8core src dstp cfg).lane i ≤ 255 := by
  rw [Sequential.blend8core_lane_eq src dstp cfg hs hd i]
  have ha : specAlpha src cfg i.val ≤ 255 := specAlpha_le hs cfg i.val
  have hx : src.lane i * specAlpha src cfg i.val ≤ 255 * specAlpha src cfg i.val :=
    Nat.mul_le_mul_right _ (hs i)
  have hy : dstp.lane i * (255 - specAlpha src cfg i.val) ≤
      255 * (255 - specAlpha src cfg i.val) :=
    Nat.mul_le_mul_right _ (hd i)
  omega

theorem Sequential.blend8_eq_some (src : EightPixels) (dst : List Byte) (cfg : AlphaConfig)
    (hlen : dst.length ≤ 32) (hcfg : cfg ≠ AlphaConfig.None) :
    Sequential.blend8 src dst cfg =
      some ((List.range dst.length).map fun k =>
        byteOf ((Sequential.blend8core src ⟨fun i => byteAt dst i.val⟩ cfg).laneAt k)) := by
  unfold Sequential.blend8
  rw [if_pos hcfg, EightPixels.new_eq hlen]
  exact EightPixels.write_eq _ hlen

theorem blendFormula_le {s a d : Nat} (hs : s ≤ 255) (ha : a ≤ 255) (hd : d ≤ 255) :
    (s * a + d * (255 - a)) / 255 ≤ 255 := by
  have hx : s * a ≤ 255 * a := Nat.mul_le_mul_right _ hs
  have hy : d * (255 - a) ≤ 255 * (255 - a) := Nat.mul_le_mul_right _ hd
  omega

/-- C1: for every `EightPixels` source with all 32 lanes at most 255,
every destination byte slice of length at most 32 and every alpha
configuration other than `None`, `blend8` overwrites byte `k`
(`k < dst.len()`) with `(src.lane[k] * a_src + dst.lane[k] * a_dst) / 255`
where `a_src` is the source lane at `(k & !3) + alpha_index(cfg)`,
`a_dst = 255 - a_src`, `dst.lane[k]` is the zero-filled widened
destination byte, and the division truncates. -/
theorem claim1_blend8_formula (src : EightPixels) (dst : List Byte) (cfg : AlphaConfig)
    (hs : ∀ i, src.lane i ≤ 255) (hlen : dst.length ≤ 32) (hcfg : cfg ≠ AlphaConfig.None) :
    ∃ out, Sequential.blend8 src dst cfg = some out ∧ out.length = dst.length ∧
      ∀ k, k < dst.length →
        out[k]?.map Fin.val =
          some ((src.laneAt k * specAlpha src cfg k +
            byteAt dst k * (255 - specAlpha src cfg k)) / 255) := by
  refine ⟨_, Sequential.blend8_eq_some src dst cfg hlen hcfg, by simp, ?_⟩
  intro k hk
  have hk32 : k < 32 := lt_of_lt_of_le hk hlen
  have hd : ∀ i, (⟨fun i => byteAt dst i.val⟩ : EightPixels).lane i ≤ 255 :=
    fun i => byteAt_le dst i.val
  rw [List.getElem?_map, List.getElem?_range hk]
  simp only [Option.map_some']
  congr 1
  rw [EightPixels.laneAt_lt _ hk32,
    Sequential.blend8core_lane_eq src _ cfg hs hd ⟨k, hk32⟩]
  have hb : ((⟨k, hk32⟩ : Fin 32)).val = k := rfl
  rw [byteOf_val (blendFormula_le (hs ⟨k, hk32⟩) (specAlpha_le hs cfg k) (byteAt_le dst k))]
  rw [EightPixels.laneAt_lt src hk32]

/-- Witness for C1: the spec's worked example — blending eight copies
of `(200, 100, 50, 128)` over opaque black with alpha at byte 3 yields
`(100, 50, 25, 191)` per pixel. -/
theorem claim1_blend8_formula_witness :
    ∃ out, Sequential.blend8 (packOfPixel 200 100 50 128) wDstOpaque
        AlphaConfig.FourthByte = some out ∧
      out.length = 32 ∧
      out[0]?.map Fin.val = some 100 ∧ out[1]?.map Fin.val = some 50 ∧
      out[2]?.map Fin.val = some 25 ∧ out[3]?.map Fin.val = some 191 := by
  obtain ⟨out, h1, h2, h3⟩ := claim1_blend8_formula (packOfPixel 200 100 50 128)
    wDstOpaque AlphaConfig.FourthByte (by decide) (by decide) (by decide)
  refine ⟨out, h1, by rw [h2]; decide, ?_, ?_, ?_, ?_⟩
  · rw [h3 0 (by decide)]; decide
  · rw [h3 1 (by decide)]; decide
  · rw [h3 2 (by decide)]; decide
  · rw [h3 3 (by decide)]; decide

theorem byteAt_lt {dst : List Byte} {k : Nat} (hk : k < dst.length) :
    byteAt dst k = (dst.get ⟨k, hk⟩).val := by
  simp [byteAt, List.getElem?_eq_getElem hk]

theorem byteOf_byteAt {dst : List Byte} {k : Nat} (hk : k < dst.length) :
    byteOf (byteAt dst k) = dst.get ⟨k, hk⟩ := by
  rw [byteAt_lt hk]
  exact Fin.ext (byteOf_val (Nat.le_of_lt_succ (dst.get ⟨k, hk⟩).isLt))

/-- C6: with `AlphaConfig::None`, `blend8` overwrites the destination
byte-for-byte with the low 8 bits of the first `dst.len()` source
lanes; no arithmetic is applied and no byte past `dst.len()` is
produced. -/
theorem claim6_blend8_none_copy (src : EightPixels) (dst : List Byte)
    (hlen : dst.length ≤ 32) :
    Sequential.blend8 src dst AlphaConfig.None =
      some ((List.range dst.length).map fun k => byteOf (src.laneAt k)) := by
  unfold Sequential.blend8
  rw [if_neg (by simp)]
  exact EightPixels.write_eq src hlen

/-- Witness for C6: a 12-byte (three-pixel) destination is overwritten
with the first 12 lanes truncated to bytes; lane value 300 comes out as
`300 % 256 = 44`, untouched by any blend arithmetic. -/
theorem claim6_blend8_none_copy_witness :
    Sequential.blend8 (packOfPixel 300 20 30 40) (List.replicate 12 (0 : Byte))
        AlphaConfig.None =
      some ((List.range 12).map fun k => byteOf ((packOfPixel 300 20 30 40).laneAt k)) ∧
    ((List.range 12).map fun k => byteOf ((packOfPixel 300 20 30 40).laneAt k)) =
      [44, 20, 30, 40, 44, 20, 30, 40, 44, 20, 30, 40] := by
  constructor
  · have h := claim6_blend8_none_copy (packOfPixel 300 20 30 40)
      (List.replicate 12 (0 : Byte)) (by decide)
    simpa using h
  · decide

/-- C7: a fully transparent source (alpha lane 0 in every pixel) with a
non-`None` config leaves the destination bytes unchanged. -/
theorem claim7_blend8_transparent (src : EightPixels) (dst : List Byte) (cfg : AlphaConfig)
    (hs : ∀ i, src.lane i ≤ 255)
    (ha : ∀ p : Fin 8, src.laneAt (4 * p.val + (alphaChannel cfg).val) = 0)
    (hlen : dst.length ≤ 32) (hcfg : cfg ≠ AlphaConfig.None) :
    Sequential.blend8 src dst cfg = some dst := by
  rw [Sequential.blend8_eq_some src dst cfg hlen hcfg]
  congr 1
  apply List.ext_getElem?
  intro k
  by_cases hk : k < dst.length
  · rw [List.getElem?_map, List.getElem?_range hk, List.getElem?_eq_getElem hk]
    simp only [Option.map_some']
    congr 1
    have hk32 : k < 32 := lt_of_lt_of_le hk hlen
    have hd : ∀ i, (⟨fun i => byteAt dst i.val⟩ : EightPixels).lane i ≤ 255 :=
      fun i => byteAt_le dst i.val
    rw [EightPixels.laneAt_lt _ hk32,
      Sequential.blend8core_lane_eq src _ cfg hs hd ⟨k, hk32⟩]
    have hA : specAlpha src cfg (⟨k, hk32⟩ : Fin 32).val = 0 := ha ⟨k / 4, by omega⟩
    rw [hA]
    show byteOf (((src.lane ⟨k, hk32⟩) * 0 + byteAt dst k * (255 - 0)) / 255) = dst[k]
    rw [Nat.mul_zero, Nat.zero_add, Nat.sub_zero, Nat.mul_div_cancel _ (by omega)]
    exact byteOf_byteAt hk
  · have hk' : dst.length ≤ k := by omega
    rw [List.getElem?_eq_none (by simpa using hk'), List.getElem?_eq_none hk']

/-- Witness for C7: blending a fully transparent pixel pack over opaque
black leaves the destination bytes untouched. -/
theorem claim7_blend8_transparent_witness :
    Sequential.blend8 (packOfPixel 10 20 30 0) wDstOpaque AlphaConfig.FourthByte =
      some wDstOpaque :=
  claim7_blend8_transparent (packOfPixel 10 20 30 0) wDstOpaque AlphaConfig.FourthByte
    (by decide) (by decide) (by decide) (by decide)

theorem EightPixels.new_nil : EightPixels.new [] = some ⟨fun _ => 0⟩ := by
  unfold EightPixels.new
  rw [dif_pos (by decide)]
  rfl

theorem foldOpt_congr {σ α : Type} {f g : σ → α → Option σ} (h : ∀ s a, f s a = g s a) :
    ∀ (l : List α) (s : σ), foldOpt f s l = foldOpt g s l := by
  intro l
  induction l with
  | nil => intro s; rfl
  | cons a t ih =>
    intro s
    unfold foldOpt
    rw [h s a]
    cases g s a with
    | none => rfl
    | some t2 => exact ih t2

theorem foldOpt_rel {σ₁ σ₂ α : Type} (R : σ₁ → σ₂ → Prop) (f : σ₁ → α → Option σ₁)
    (g : σ₂ → α → Option σ₂)
    (h : ∀ s₁ s₂ a, R s₁ s₂ →
      (f s₁ a = none ∧ g s₂ a = none) ∨
        ∃ t₁ t₂, f s₁ a = some t₁ ∧ g s₂ a = some t₂ ∧ R t₁ t₂) :
    ∀ (l : List α) (s₁ : σ₁) (s₂ : σ₂), R s₁ s₂ →
      (foldOpt f s₁ l = none ∧ foldOpt g s₂ l = none) ∨
        ∃ t₁ t₂, foldOpt f s₁ l = some t₁ ∧ foldOpt g s₂ l = some t₂ ∧ R t₁ t₂ := by
  intro l
  induction l with
  | nil => intro s₁ s₂ hR; exact Or.inr ⟨s₁, s₂, rfl, rfl, hR⟩
  | cons a t ih =>
    intro s₁ s₂ hR
    rcases h s₁ s₂ a hR with ⟨h1, h2⟩ | ⟨t₁, t₂, h1, h2, hR2⟩
    · left
      constructor
      · unfold foldOpt; rw [h1]
      · unfold foldOpt; rw [h2]
    · unfold foldOpt
      rw [h1, h2]
      exact ih t₁ t₂ hR2

theorem accEntry_rel {K : Nat} (c : SsaaCoords K) (src : PixelArray) (i : Fin K) (j : Fin 8)
    (st1 : (Fin 32 → Nat) × (Fin 8 → Nat)) (st2 : (Fin 8 → Fin 4 → Nat) × (Fin 8 → Nat))
    (hR : (∀ l, st1.1 l = st2.1 (slotOf l) (chOf l)) ∧ st1.2 = st2.2) :
    (Sequential.accEntry c src st1 i j = none ∧ Simd.accEntry c src st2 i j = none) ∨
      ∃ t₁ t₂, Sequential.accEntry c src st1 i j = some t₁ ∧
        Simd.accEntry c src st2 i j = some t₂ ∧
        ((∀ l, t₁.1 l = t₂.1 (slotOf l) (chOf l)) ∧ t₁.2 = t₂.2) := by
  unfold Sequential.accEntry Simd.accEntry
  by_cases hu : usable c src i j = true
  · rw [if_pos hu, if_pos hu]
    by_cases ho : c.src_o i j < 8
    · rw [dif_pos ho, dif_pos ho]
      refine Or.inr ⟨_, _, rfl, rfl, ?_, ?_⟩
      · intro l
        dsimp only
        by_cases hl : slotOf l = ⟨c.src_o i j, ho⟩
        · rw [if_pos hl, if_pos hl, hR.1 l]
        · rw [if_neg hl, if_neg hl]
          exact hR.1 l
      · dsimp only
        rw [hR.2]
    · rw [dif_neg ho, dif_neg ho]
      exact Or.inl ⟨rfl, rfl⟩
  · rw [if_neg hu, if_neg hu]
    exact Or.inr ⟨st1, st2, rfl, rfl, hR⟩

theorem accumulate_rel {K : Nat} (c : SsaaCoords K) (src : PixelArray)
    (st1 : (Fin 32 → Nat) × (Fin 8 → Nat)) (st2 : (Fin 8 → Fin 4 → Nat) × (Fin 8 → Nat))
    (hR : (∀ l, st1.1 l = st2.1 (slotOf l) (chOf l)) ∧ st1.2 = st2.2) :
    (Sequential.accumulate c src st1 = none ∧ Simd.accumulate c src st2 = none) ∨
      ∃ t₁ t₂, Sequential.accumulate c src st1 = some t₁ ∧
        Simd.accumulate c src st2 = some t₂ ∧
        ((∀ l, t₁.1 l = t₂.1 (slotOf l) (chOf l)) ∧ t₁.2 = t₂.2) := by
  unfold Sequential.accumulate Simd.accumulate
  exact foldOpt_rel _ _ _
    (fun s1 s2 i h =>
      foldOpt_rel _ _ _ (fun t1 t2 j h2 => accEntry_rel c src i j t1 t2 h2)
        (List.finRange 8) s1 s2 h)
    (List.finRange K) st1 st2 hR

theorem Sequential.ssaa8_def {K : Nat} (c : SsaaCoords K) (src : PixelArray) :
    Sequential.ssaa8 c src =
      match Sequential.accumulate c src (fun _ => 0, fun _ => 0) with
      | none => none
      | some (pack, cnts) =>
        if K % 65536 = 0 then none
        else some ⟨fun l => pack l / ssaaDivisor K (cnts (slotOf l))⟩ := by
  unfold Sequential.ssaa8
  rw [EightPixels.new_nil]

/-- C3: the scalar and vectorized implementations agree bit-for-bit:
`blend8` returns identical destination bytes and `ssaa8` identical
packs, on all inputs (panic cases agree as well). -/
theorem claim3_scalar_simd_parity :
    (∀ (src : EightPixels) (dst : List Byte) (cfg : AlphaConfig),
        Simd.blend8 src dst cfg = Sequential.blend8 src dst cfg) ∧
    (∀ (K : Nat) (c : SsaaCoords K) (src : PixelArray),
        Simd.ssaa8 c src = Sequential.ssaa8 c src) := by
  constructor
  · intro src dst cfg
    unfold Simd.blend8 Sequential.blend8
    by_cases hcfg : cfg ≠ AlphaConfig.None
    · rw [if_pos hcfg, if_pos hcfg]
      cases hnew : EightPixels.new dst with
      | none => rfl
      | some dstp =>
        show (Simd.blend8core src dstp cfg).write dst.length =
          (Sequential.blend8core src dstp cfg).write dst.length
        rw [blend8core_simd_eq_seq]
    · rw [if_neg hcfg, if_neg hcfg]
  · intro K c src
    rw [Sequential.ssaa8_def]
    unfold Simd.ssaa8
    rcases accumulate_rel c src (fun _ => 0, fun _ => 0) (fun _ _ => 0, fun _ => 0)
        ⟨fun l => rfl, rfl⟩ with ⟨h1, h2⟩ | ⟨⟨pack, cnts⟩, ⟨sums, cnts2⟩, h1, h2, hR⟩
    · rw [h1, h2]
    · rw [h1, h2]
      show (if K % 65536 = 0 then none
          else some (⟨fun l => sums (slotOf l) (chOf l) / ssaaDivisor K (cnts2 (slotOf l))⟩ :
            EightPixels)) =
        (if K % 65536 = 0 then none
          else some (⟨fun l => pack l / ssaaDivisor K (cnts (slotOf l))⟩ : EightPixels))
      by_cases hd : K % 65536 = 0
      · rw [if_pos hd, if_pos hd]
      · rw [if_neg hd, if_neg hd]
        congr 1
        ext l
        show sums (slotOf l) (chOf l) / ssaaDivisor K (cnts2 (slotOf l)) =
          pack l / ssaaDivisor K (cnts (slotOf l))
        have e1 : pack l = sums (slotOf l) (chOf l) := hR.1 l
        have e2 : cnts = cnts2 := hR.2
        rw [e1, e2]

theorem foldOpt_nil {σ α : Type} (f : σ → α → Option σ) (s : σ) : foldOpt f s [] = some s := rfl

theorem foldOpt_cons {σ α : Type} (f : σ → α → Option σ) (s : σ) (a : α) (l : List α) :
    foldOpt f s (a :: l) =
      match f s a with
      | none => none
      | some t => foldOpt f t l := rfl

theorem Sequential.accRow_eq {K : Nat} (c : SsaaCoords K) (src : PixelArray) (i : Fin K)
    (hwf : ∀ j, usable c src i j = true → c.src_o i j = j.val) :
    ∀ (js : List (Fin 8)), js.Nodup → ∀ (st : (Fin 32 → Nat) × (Fin 8 → Nat)),
      foldOpt (fun st2 j => Sequential.accEntry c src st2 i j) st js =
        some
          (fun l => if slotOf l ∈ js ∧ usable c src i (slotOf l) = true then
              u16add (st.1 l) ((src.get (srcIndex c src i (slotOf l))).channel (chOf l))
            else st.1 l,
           fun o => if o ∈ js ∧ usable c src i o = true then (st.2 o + 1) % 65536
            else st.2 o) := by
  intro js
  induction js with
  | nil =>
    intro _ st
    rw [foldOpt_nil]
    refine congrArg some (Prod.ext ?_ ?_)
    · funext l
      dsimp only
      rw [if_neg (by simp)]
    · funext o
      dsimp only
      rw [if_neg (by simp)]
  | cons j rest ih =>
    intro hnd st
    obtain ⟨hjn, hnd2⟩ := List.nodup_cons.mp hnd
    rw [foldOpt_cons]
    by_cases hu : usable c src i j = true
    · have ho8 : c.src_o i j < 8 := by rw [hwf j hu]; exact j.isLt
      have hj : (⟨c.src_o i j, ho8⟩ : Fin 8) = j := Fin.ext (hwf j hu)
      have hacc : Sequential.accEntry c src st i j = some
          (fun l => if slotOf l = j then
              u16add (st.1 l) ((src.get (srcIndex c src i j)).channel (chOf l))
            else st.1 l,
           updateFn st.2 j ((st.2 j + 1) % 65536)) := by
        unfold Sequential.accEntry
        rw [if_pos hu, dif_pos ho8, hj]
      rw [hacc]
      show foldOpt (fun st2 j => Sequential.accEntry c src st2 i j) _ rest = _
      rw [ih hnd2]
      refine congrArg some (Prod.ext ?_ ?_)
      · funext l
        dsimp only
        by_cases hsl : slotOf l = j
        · rw [hsl, if_neg (fun hcon => hjn hcon.1), if_pos rfl,
            if_pos ⟨List.mem_cons_self j rest, hu⟩]
        · by_cases hmr : slotOf l ∈ rest ∧ usable c src i (slotOf l) = true
          · rw [if_pos hmr, if_neg hsl, if_pos ⟨List.mem_cons_of_mem j hmr.1, hmr.2⟩]
          · rw [if_neg hmr, if_neg hsl, if_neg (fun hcon =>
              hmr ⟨(List.mem_cons.mp hcon.1).resolve_left hsl, hcon.2⟩)]
      · funext o
        dsimp only
        simp only [updateFn]
        by_cases hoj : o = j
        · rw [hoj, if_neg (fun hcon => hjn hcon.1), if_pos rfl,
            if_pos ⟨List.mem_cons_self j rest, hu⟩]
        · by_cases hmr : o ∈ rest ∧ usable c src i o = true
          · rw [if_pos hmr, if_neg hoj, if_pos ⟨List.mem_cons_of_mem j hmr.1, hmr.2⟩]
          · rw [if_neg hmr, if_neg hoj, if_neg (fun hcon =>
              hmr ⟨(List.mem_cons.mp hcon.1).resolve_left hoj, hcon.2⟩)]
    · have hacc : Sequential.accEntry c src st i j = some st := by
        unfold Sequential.accEntry
        rw [if_neg hu]
      rw [hacc]
      show foldOpt (fun st2 j => Sequential.accEntry c src st2 i j) st rest = _
      rw [ih hnd2]
      refine congrArg some (Prod.ext ?_ ?_)
      · funext l
        dsimp only
        by_cases hmr : slotOf l ∈ rest ∧ usable c src i (slotOf l) = true
        · rw [if_pos hmr, if_pos ⟨List.mem_cons_of_mem j hmr.1, hmr.2⟩]
        · have h2 : ¬(slotOf l ∈ j :: rest ∧ usable c src i (slotOf l) = true) := by
            intro hcon
            rcases List.mem_cons.mp hcon.1 with he | hr
            · exact hu (he ▸ hcon.2)
            · exact hmr ⟨hr, hcon.2⟩
          rw [if_neg hmr, if_neg h2]
      · funext o
        dsimp only
        by_cases hmr : o ∈ rest ∧ usable c src i o = true
        · rw [if_pos hmr, if_pos ⟨List.mem_cons_of_mem j hmr.1, hmr.2⟩]
        · have h2 : ¬(o ∈ j :: rest ∧ usable c src i o = true) := by
            intro hcon
            rcases List.mem_cons.mp hcon.1 with he | hr
            · exact hu (he ▸ hcon.2)
            · exact hmr ⟨hr, hcon.2⟩
          rw [if_neg hmr, if_neg h2]

theorem Sequential.accRows_eq {K : Nat} (c : SsaaCoords K) (src : PixelArray)
    (hwf : ∀ (i : Fin K) j, usable c src i j = true → c.src_o i j = j.val) :
    ∀ (is : List (Fin K)) (st : (Fin 32 → Nat) × (Fin 8 → Nat)),
      (∀ l, st.1 l < 65536) → (∀ o, st.2 o < 65536) →
      foldOpt (fun st2 i => foldOpt (fun st3 j => Sequential.accEntry c src st3 i j) st2
          (List.finRange 8)) st is =
        some
          (fun l => (st.1 l +
              ((is.filter fun i => usable c src i (slotOf l)).map fun i =>
                (src.get (srcIndex c src i (slotOf l))).channel (chOf l)).sum) % 65536,
           fun o => (st.2 o + (is.filter fun i => usable c src i o).length) % 65536) := by
  intro is
  induction is with
  | nil =>
    intro st hlt hct
    rw [foldOpt_nil]
    refine congrArg some (Prod.ext ?_ ?_)
    · funext l
      dsimp only
      simp only [List.filter_nil, List.map_nil, List.sum_nil]
      have := hlt l
      omega
    · funext o
      dsimp only
      simp only [List.filter_nil, List.length_nil]
      have := hct o
      omega
  | cons i rest ih =>
    intro st hlt hct
    rw [foldOpt_cons,
      Sequential.accRow_eq c src i (hwf i) (List.finRange 8) (List.nodup_finRange 8) st]
    show foldOpt (fun st2 i => foldOpt (fun st3 j => Sequential.accEntry c src st3 i j) st2
        (List.finRange 8)) _ rest = _
    have hlt2 : ∀ l, (if slotOf l ∈ List.finRange 8 ∧ usable c src i (slotOf l) = true then
        u16add (st.1 l) ((src.get (srcIndex c src i (slotOf l))).channel (chOf l))
      else st.1 l) < 65536 := by
      intro l
      by_cases h : slotOf l ∈ List.finRange 8 ∧ usable c src i (slotOf l) = true
      · rw [if_pos h]
        exact Nat.mod_lt _ (by omega)
      · rw [if_neg h]
        exact hlt l
    have hct2 : ∀ o, (if o ∈ List.finRange 8 ∧ usable c src i o = true then
        (st.2 o + 1) % 65536 else st.2 o) < 65536 := by
      intro o
      by_cases h : o ∈ List.finRange 8 ∧ usable c src i o = true
      · rw [if_pos h]
        exact Nat.mod_lt _ (by omega)
      · rw [if_neg h]
        exact hct o
    rw [ih _ hlt2 hct2]
    refine congrArg some (Prod.ext ?_ ?_)
    · funext l
      dsimp only
      rw [List.filter_cons]
      by_cases hu : usable c src i (slotOf l) = true
      · rw [if_pos ⟨List.mem_finRange _, hu⟩, if_pos hu]
        simp only [List.map_cons, List.sum_cons]
        unfold u16add
        omega
      · rw [if_neg (fun hcon => hu hcon.2), if_neg hu]
    · funext o
      dsimp only
      rw [List.filter_cons]
      by_cases hu : usable c src i o = true
      · rw [if_pos ⟨List.mem_finRange _, hu⟩, if_pos hu]
        simp only [List.length_cons]
        omega
      · rw [if_neg (fun hcon => hu hcon.2), if_neg hu]

theorem ssaaDivisor_eq (K cnt : Nat) : ssaaDivisor K cnt = K % 65536 := rfl

theorem Sequential.accumulate_char {K : Nat} (c : SsaaCoords K) (src : PixelArray)
    (hwf : ∀ (i : Fin K) j, usable c src i j = true → c.src_o i j = j.val) :
    Sequential.accumulate c src (fun _ => 0, fun _ => 0) =
      some (fun l => slotSum c src (slotOf l) (chOf l) % 65536,
            fun o => slotCount c src o % 65536) := by
  unfold Sequential.accumulate
  rw [Sequential.accRows_eq c src hwf (List.finRange K) (fun _ => 0, fun _ => 0)
    (fun l => by dsimp only; omega) (fun o => by dsimp only; omega)]
  refine congrArg some (Prod.ext ?_ ?_)
  · funext l
    show (0 + ((((List.finRange K).filter fun i => usable c src i (slotOf l)).map fun i =>
      (src.get (srcIndex c src i (slotOf l))).channel (chOf l)).sum)) % 65536 =
      slotSum c src (slotOf l) (chOf l) % 65536
    rw [Nat.zero_add]
    rfl
  · funext o
    show (0 + ((List.finRange K).filter fun i => usable c src i o).length) % 65536 =
      slotCount c src o % 65536
    rw [Nat.zero_add]
    rfl

theorem Sequential.ssaa8_char {K : Nat} (c : SsaaCoords K) (src : PixelArray)
    (hwf : ∀ (i : Fin K) j, usable c src i j = true → c.src_o i j = j.val)
    (hK : K % 65536 ≠ 0) :
    Sequential.ssaa8 c src =
      some ⟨fun l => (slotSum c src (slotOf l) (chOf l) % 65536) / (K % 65536)⟩ := by
  rw [Sequential.ssaa8_def, Sequential.accumulate_char c src hwf]
  show (if K % 65536 = 0 then none
    else some (⟨fun l => (slotSum c src (slotOf l) (chOf l) % 65536) /
      ssaaDivisor K (slotCount c src (slotOf l) % 65536)⟩ : EightPixels)) = _
  rw [if_neg hK]
  rfl

theorem slotCount_le {K : Nat} (c : SsaaCoords K) (src : PixelArray) (o : Fin 8) :
    slotCount c src o ≤ K := by
  unfold slotCount slotSamples
  calc ((List.finRange K).filter fun i => usable c src i o).length
      ≤ (List.finRange K).length := List.length_filter_le _ _
    _ = K := List.length_finRange K

theorem channel_le (px : Rgba8) (ch : Fin 4) : px.channel ch ≤ 255 := by
  match ch with
  | ⟨0, _⟩ => exact Nat.le_of_lt_succ px.r.isLt
  | ⟨1, _⟩ => exact Nat.le_of_lt_succ px.g.isLt
  | ⟨2, _⟩ => exact Nat.le_of_lt_succ px.b.isLt
  | ⟨3, _⟩ => exact Nat.le_of_lt_succ px.a.isLt

theorem slotSum_le {K : Nat} (c : SsaaCoords K) (src : PixelArray) (o : Fin 8) (ch : Fin 4) :
    slotSum c src o ch ≤ slotCount c src o * 255 := by
  unfold slotSum slotCount
  generalize slotSamples c src o = xs
  induction xs with
  | nil => simp
  | cons a t ih =>
    simp only [List.map_cons, List.sum_cons, List.length_cons]
    have := channel_le (src.get (srcIndex c src a o)) ch
    omega

theorem usable_false_of_sentinel {K : Nat} {c : SsaaCoords K} {src : PixelArray}
    {i : Fin K} {j : Fin 8} (hx : c.src_x i j = USIZEMAX) :
    usable c src i j = false := by
  unfold usable
  have hlt : ¬(c.src_x i j < src.width) := by
    rw [hx]
    unfold USIZEMAX
    have := src.width_lt
    omega
  simp [hlt]

theorem usable_new (K : Nat) (src : PixelArray) (i : Fin K) (j : Fin 8) :
    usable (SsaaCoords.new K) src i j = false :=
  usable_false_of_sentinel rfl

theorem reachable_inv {K : Nat} {c : SsaaCoords K} (h : Reachable c) : SsaaInv c := by
  induction h with
  | new => intro i j; exact Or.inr ⟨rfl, rfl, rfl⟩
  | set c0 c1 pixel sub_pixel x y _hr hset ih =>
    unfold SsaaCoords.set at hset
    by_cases hp : pixel < 8
    · rw [dif_pos hp] at hset
      by_cases hs : sub_pixel < K
      · rw [dif_pos hs] at hset
        injection hset with hset
        subst hset
        intro i j
        dsimp only
        by_cases hi : i = ⟨sub_pixel, hs⟩
        · subst hi
          by_cases hj : j = ⟨pixel, hp⟩
          · subst hj
            left
            simp [updateFn]
          · have h0 := ih ⟨sub_pixel, hs⟩ j
            simpa [updateFn, hj] using h0
        · have h0 := ih i j
          simpa [updateFn, hi] using h0
      · rw [dif_neg hs] at hset
        exact absurd hset (by simp)
    · rw [dif_neg hp] at hset
      exact absurd hset (by simp)

theorem inv_usable_src_o {K : Nat} {c : SsaaCoords K} (hinv : SsaaInv c) (src : PixelArray)
    (i : Fin K) (j : Fin 8) (hu : usable c src i j = true) : c.src_o i j = j.val := by
  rcases hinv i j with h | ⟨_, hx, _⟩
  · exact h
  · rw [usable_false_of_sentinel hx] at hu
    exact absurd hu (by simp)

/-- Counterexample to C8 as stated: the claim quantifies over every
`K ≥ 1`, but at `K = 65536` the divisor `SSAA_SQ as u16` is zero, so
`ssaa8` panics (division by zero) instead of returning the all-zero
pack. -/
theorem claim8_counterexample :
    Sequential.ssaa8 (SsaaCoords.new 65536) cexSrcBlack = none := by
  rw [Sequential.ssaa8_def, Sequential.accumulate_char _ _
    (fun i j hu => absurd hu (by rw [usable_new]; simp))]
  show (if 65536 % 65536 = 0 then none else _) = none
  rw [if_pos (by norm_num)]

/-- C8 (amended): for every source and every `K ≥ 1` whose low 16 bits
are nonzero (in particular every `K` in the documented range
`1 ≤ K ≤ 257`), `ssaa8` on a freshly constructed `SsaaCoords` (no `set`
call) samples nothing and returns the all-zero pack, because every
sentinel entry fails the bounds check. -/
theorem claim8_empty_coords {K : Nat} (src : PixelArray) (_hK1 : 1 ≤ K)
    (hKmod : K % 65536 ≠ 0) :
    Sequential.ssaa8 (SsaaCoords.new K) src = some ⟨fun _ => 0⟩ := by
  rw [Sequential.ssaa8_char (SsaaCoords.new K) src
    (fun i j hu => absurd hu (by rw [usable_new]; simp)) hKmod]
  congr 1
  ext l
  show (slotSum (SsaaCoords.new K) src (slotOf l) (chOf l) % 65536) / (K % 65536) = 0
  have hnil : slotSamples (SsaaCoords.new K) src (slotOf l) = [] := by
    unfold slotSamples
    apply List.filter_eq_nil_iff.mpr
    intro a _
    rw [usable_new]
    simp
  have hs : slotSum (SsaaCoords.new K) src (slotOf l) (chOf l) = 0 := by
    unfold slotSum
    rw [hnil]
    rfl
  rw [hs]
  simp

/-- Witness for the amended C8 at `K = 4`. -/
theorem claim8_empty_coords_witness :
    Sequential.ssaa8 (SsaaCoords.new 4) wSrc22 = some ⟨fun _ => 0⟩ :=
  claim8_empty_coords wSrc22 (by decide) (by decide)

theorem sum_map_const_of_mem {α : Type} (xs : List α) (f : α → Nat) (v : Nat)
    (h : ∀ a ∈ xs, f a = v) : (xs.map f).sum = xs.length * v := by
  induction xs with
  | nil => simp
  | cons a t ih =>
    simp only [List.map_cons, List.sum_cons, List.length_cons]
    rw [h a (List.mem_cons_self a t), ih (fun b hb => h b (List.mem_cons_of_mem a hb))]
    ring

theorem usable_length_lt {K : Nat} {c : SsaaCoords K} {src : PixelArray} {i : Fin K}
    {j : Fin 8} (hu : usable c src i j = true) : srcIndex c src i j < src.length := by
  unfold usable at hu
  simp only [Bool.and_eq_true, decide_eq_true_eq] at hu
  exact hu.2

/-- Counterexample to C2 as stated: the claim allows any `K >= 1`, but
the per-channel accumulator is 16-bit.  At `K = 258` with 258 usable
all-white samples on slot 0, the sum `258 * 255 = 65790` wraps to 254,
and the output channel is `254 / 258 = 0`, not `floor(258*255/258) =
255` as the claim's formula states. -/
theorem claim2_counterexample :
    (Sequential.ssaa8 cexCoords258 cexSrcWhite).map
        (fun p => p.lane ⟨0, by omega⟩) = some 0 ∧
    slotCount cexCoords258 cexSrcWhite ⟨0, by omega⟩ = 258 ∧
    258 * 255 / 258 = 255 := by
  have husable : ∀ i : Fin 258, usable cexCoords258 cexSrcWhite i ⟨0, by omega⟩ = true :=
    fun i => rfl
  have hsamples : slotSamples cexCoords258 cexSrcWhite ⟨0, by omega⟩ = List.finRange 258 := by
    unfold slotSamples
    exact List.filter_eq_self.mpr (fun a _ => husable a)
  refine ⟨?_, ?_, by norm_num⟩
  · rw [Sequential.ssaa8_char cexCoords258 cexSrcWhite (fun i j hu => rfl) (by norm_num)]
    simp only [Option.map_some']
    refine congrArg some ?_
    dsimp only
    have hslot : slotOf (⟨0, by omega⟩ : Fin 32) = (⟨0, by omega⟩ : Fin 8) := rfl
    have hch : chOf (⟨0, by omega⟩ : Fin 32) = (⟨0, by omega⟩ : Fin 4) := rfl
    rw [hslot, hch]
    have hsum : slotSum cexCoords258 cexSrcWhite ⟨0, by omega⟩ ⟨0, by omega⟩ =
        258 * 255 := by
      unfold slotSum
      rw [hsamples,
        sum_map_const_of_mem (List.finRange 258)
          (fun i => (cexSrcWhite.get
            (srcIndex cexCoords258 cexSrcWhite i ⟨0, by omega⟩)).channel ⟨0, by omega⟩)
          255 (fun a _ => rfl),
        List.length_finRange]
    rw [hsum]
  · unfold slotCount
    rw [hsamples, List.length_finRange]

/-- C2 (amended): for every `SsaaCoords` value satisfying the
representation invariant (all Rust-reachable tables do), every `K` in
the documented range (`K ≥ 1`, `K * 255 ≤ 65535`, i.e. `K ≤ 257`) and
a constant-color source, `ssaa8` divides each slot's accumulated
channel sum by the constant `K` — not by the per-slot usable count —
so a slot with `u` usable samples of color `C` yields
`floor(u * C / K)` per channel, out-of-bounds samples contributing 0
to the sum while `K` stays the divisor. -/
theorem claim2_fixed_divisor {K : Nat} (c : SsaaCoords K) (src : PixelArray) (C : Rgba8)
    (hinv : SsaaInv c) (hK1 : 1 ≤ K) (hK : K * 255 ≤ 65535)
    (hconst : ∀ idx, idx < src.length → src.get idx = C) :
    ∃ pack, Sequential.ssaa8 c src = some pack ∧
      ∀ l : Fin 32, pack.lane l =
        slotCount c src (slotOf l) * C.channel (chOf l) / K := by
  have hKlt : K < 65536 := by omega
  have hK65536 : K % 65536 = K := Nat.mod_eq_of_lt hKlt
  have hwf : ∀ (i : Fin K) j, usable c src i j = true → c.src_o i j = j.val :=
    fun i j hu => inv_usable_src_o hinv src i j hu
  refine ⟨_, Sequential.ssaa8_char c src hwf (by omega), ?_⟩
  intro l
  show (slotSum c src (slotOf l) (chOf l) % 65536) / (K % 65536) = _
  have hsum : slotSum c src (slotOf l) (chOf l) =
      slotCount c src (slotOf l) * C.channel (chOf l) := by
    unfold slotSum slotCount
    apply sum_map_const_of_mem
    intro i hi
    have hu : usable c src i (slotOf l) = true := by
      have := List.mem_filter.mp hi
      exact this.2
    rw [hconst _ (usable_length_lt hu)]
  have hle : slotCount c src (slotOf l) * C.channel (chOf l) ≤ 65535 := by
    calc slotCount c src (slotOf l) * C.channel (chOf l)
        ≤ K * 255 := Nat.mul_le_mul (slotCount_le c src _) (channel_le C _)
      _ ≤ 65535 := hK
  rw [hsum, hK65536, Nat.mod_eq_of_lt (by omega)]

/-- Witness for the amended C2: the spec's scenario 5 — `K = 4`, three
in-bounds samples of `(40, 80, 120, 160)` on slot 0 and one
out-of-bounds, other slots empty: slot 0 yields `(30, 60, 90, 120)`
and slot 1 yields 0. -/
theorem claim2_fixed_divisor_witness :
    ∃ pack, Sequential.ssaa8 wCoords3 wSrc22 = some pack ∧
      pack.lane ⟨0, by omega⟩ = 30 ∧ pack.lane ⟨1, by omega⟩ = 60 ∧
      pack.lane ⟨2, by omega⟩ = 90 ∧ pack.lane ⟨3, by omega⟩ = 120 ∧
      pack.lane ⟨4, by omega⟩ = 0 := by
  obtain ⟨pack, h1, h2⟩ := claim2_fixed_divisor wCoords3 wSrc22 ⟨40, 80, 120, 160⟩
    (by decide) (by decide) (by decide) (fun idx _ => rfl)
  refine ⟨pack, h1, ?_, ?_, ?_, ?_, ?_⟩
  · rw [h2 ⟨0, by omega⟩]; decide
  · rw [h2 ⟨1, by omega⟩]; decide
  · rw [h2 ⟨2, by omega⟩]; decide
  · rw [h2 ⟨3, by omega⟩]; decide
  · rw [h2 ⟨4, by omega⟩]; decide

/-- C4: an entry is sampled iff it passes all three bounds checks
(equivalently, under consistent geometry `length = width * height`, the
unwrapped linear index is below `length`); the gathered index is always
below `length`, so `ssaa8` never observes `get` outside its domain —
its result only depends on `get` below `length`. -/
theorem claim4_bounds_check {K : Nat} (c : SsaaCoords K) (src src' : PixelArray)
    (hgeom : src.length = src.width * src.height) :
    (∀ (i : Fin K) (j : Fin 8), usable c src i j = true ↔
        (c.src_x i j < src.width ∧ c.src_y i j < src.height ∧
          c.src_y i j * src.width + c.src_x i j < src.length)) ∧
    (∀ (i : Fin K) (j : Fin 8), usable c src i j = true →
        srcIndex c src i j < src.length) ∧
    (src'.width = src.width → src'.height = src.height → src'.length = src.length →
      (∀ idx, idx < src.length → src'.get idx = src.get idx) →
      Sequential.ssaa8 c src' = Sequential.ssaa8 c src) := by
  refine ⟨?_, fun i j hu => usable_length_lt hu, ?_⟩
  · intro i j
    unfold usable srcIndex
    simp only [Bool.and_eq_true, decide_eq_true_eq]
    have key : ∀ (hx : c.src_x i j < src.width) (hy : c.src_y i j < src.height),
        c.src_y i j * src.width + c.src_x i j < 2 ^ 64 := by
      intro hx hy
      have h1 : c.src_y i j * src.width + c.src_x i j < c.src_y i j * src.width + src.width :=
        by omega
      have h2 : c.src_y i j * src.width + src.width = (c.src_y i j + 1) * src.width := by ring
      have h3 : (c.src_y i j + 1) * src.width ≤ src.height * src.width :=
        Nat.mul_le_mul_right _ (by omega)
      have h4 : src.height * src.width < 2 ^ 64 := by
        have := src.length_lt
        rw [hgeom] at this
        calc src.height * src.width = src.width * src.height := Nat.mul_comm _ _
          _ < 2 ^ 64 := this
      omega
    constructor
    · rintro ⟨⟨hx, hy⟩, hl⟩
      rw [Nat.mod_eq_of_lt (key hx hy)] at hl
      exact ⟨hx, hy, hl⟩
    · rintro ⟨hx, hy, hl⟩
      refine ⟨⟨hx, hy⟩, ?_⟩
      rw [Nat.mod_eq_of_lt (key hx hy)]
      exact hl
  · intro hw hh hl hget
    have hstep : ∀ st (i : Fin K) (j : Fin 8),
        Sequential.accEntry c src' st i j = Sequential.accEntry c src st i j := by
      intro st i j
      unfold Sequential.accEntry
      have hu : usable c src' i j = usable c src i j := by
        unfold usable srcIndex
        rw [hw, hh, hl]
      rw [hu]
      by_cases h : usable c src i j = true
      · rw [if_pos h, if_pos h]
        by_cases ho : c.src_o i j < 8
        · rw [dif_pos ho, dif_pos ho]
          have hsame : srcIndex c src' i j = srcIndex c src i j := by
            unfold srcIndex
            rw [hw]
          rw [hsame, hget _ (usable_length_lt h)]
        · rw [dif_neg ho, dif_neg ho]
      · rw [if_neg h, if_neg h]
    rw [Sequential.ssaa8_def, Sequential.ssaa8_def]
    have hacc : Sequential.accumulate c src' (fun _ => 0, fun _ => 0) =
        Sequential.accumulate c src (fun _ => 0, fun _ => 0) := by
      unfold Sequential.accumulate
      apply foldOpt_congr
      intro s i
      exact foldOpt_congr (fun s2 j => hstep s2 i j) (List.finRange 8) s
    rw [hacc]

/-- Witness for C4: concrete geometry 2×2, a usable entry, and two
sources agreeing below `length` but different past it give identical
`ssaa8` results. -/
theorem claim4_bounds_check_witness :
    usable wCoords3 wSrc22 ⟨0, by omega⟩ ⟨0, by omega⟩ = true ∧
    srcIndex wCoords3 wSrc22 ⟨0, by omega⟩ ⟨0, by omega⟩ < wSrc22.length ∧
    Sequential.ssaa8 wCoords3 wSrc22junk = Sequential.ssaa8 wCoords3 wSrc22 := by
  obtain ⟨h1, h2, h3⟩ := claim4_bounds_check wCoords3 wSrc22 wSrc22junk rfl
  refine ⟨(h1 ⟨0, by omega⟩ ⟨0, by omega⟩).mpr (by decide), h2 _ _ (by decide), ?_⟩
  exact h3 rfl rfl rfl (fun idx hidx => by
    show (if idx < 4 then (⟨40, 80, 120, 160⟩ : Rgba8) else ⟨9, 9, 9, 9⟩) = _
    rw [if_pos (show idx < 4 from hidx)]
    rfl)

/-- C5: every lane of an `EightPixels` produced by a public operation
is at most 255: (a) `new` on a slice of length ≤ 32, (b) the pack
`blend8` computes from lane-bounded inputs, (c) the pack `ssaa8`
returns for a reachable coordinate table when `K * 255 ≤ 65535` (the
per-channel accumulator stays ≤ `K * 255`, so no 16-bit overflow, and
the divisor `K ≥ 1` brings every lane back to ≤ 255). -/
theorem claim5_lane_bound :
    (∀ (bs : List Byte), bs.length ≤ 32 →
        ∃ p, EightPixels.new bs = some p ∧ ∀ i, p.lane i ≤ 255) ∧
    (∀ (src dstp : EightPixels) (cfg : AlphaConfig),
        (∀ i, src.lane i ≤ 255) → (∀ i, dstp.lane i ≤ 255) →
        ∀ i, (Sequential.blend8core src dstp cfg).lane i ≤ 255) ∧
    (∀ (K : Nat) (c : SsaaCoords K) (src : PixelArray),
        Reachable c → 1 ≤ K → K * 255 ≤ 65535 →
        ∃ p, Sequential.ssaa8 c src = some p ∧ ∀ l, p.lane l ≤ 255) := by
  refine ⟨?_, ?_, ?_⟩
  · intro bs hlen
    exact ⟨_, EightPixels.new_eq hlen, fun i => byteAt_le bs i.val⟩
  · intro src dstp cfg hs hd i
    exact Sequential.blend8core_lane_le src dstp cfg hs hd i
  · intro K c src hreach hK1 hK
    have hwf : ∀ (i : Fin K) j, usable c src i j = true → c.src_o i j = j.val :=
      fun i j hu => inv_usable_src_o (reachable_inv hreach) src i j hu
    have hKlt : K < 65536 := by omega
    refine ⟨_, Sequential.ssaa8_char c src hwf
      (by rw [Nat.mod_eq_of_lt hKlt]; omega), ?_⟩
    intro l
    show (slotSum c src (slotOf l) (chOf l) % 65536) / (K % 65536) ≤ 255
    have h1 : slotSum c src (slotOf l) (chOf l) ≤ K * 255 :=
      le_trans (slotSum_le c src _ _) (Nat.mul_le_mul_right _ (slotCount_le c src _))
    rw [Nat.mod_eq_of_lt (by omega), Nat.mod_eq_of_lt hKlt]
    calc slotSum c src (slotOf l) (chOf l) / K ≤ K * 255 / K := Nat.div_le_div_right h1
      _ = 255 := Nat.mul_div_cancel_left _ (by omega)

/-- Witness for C5, one concrete instance per conjunct. -/
theorem claim5_lane_bound_witness :
    (∃ p, EightPixels.new wDstOpaque = some p ∧ ∀ i, p.lane i ≤ 255) ∧
    (∀ i, (Sequential.blend8core (packOfPixel 200 100 50 128) (packOfPixel 0 0 0 255)
      AlphaConfig.FourthByte).lane i ≤ 255) ∧
    (∃ p, Sequential.ssaa8 (SsaaCoords.new 4) wSrc22 = some p ∧ ∀ l, p.lane l ≤ 255) :=
  ⟨claim5_lane_bound.1 wDstOpaque (by decide),
   fun i => claim5_lane_bound.2.1 (packOfPixel 200 100 50 128) (packOfPixel 0 0 0 255)
     AlphaConfig.FourthByte (by decide) (by decide) i,
   claim5_lane_bound.2.2 4 (SsaaCoords.new 4) wSrc22 Reachable.new (by decide) (by decide)⟩

/-- C9: `set(pixel, sub_pixel, x, y)` with both preconditions met
stores `src_o = pixel`, `src_x = x`, `src_y = y` at entry
`[sub_pixel][pixel]`, touching nothing else and applying no range check
to `x` or `y`; violating either precondition is fatal (a panic,
modelled as `none`), and a fatal call modifies no field. -/
theorem claim9_set_contract {K : Nat} (c : SsaaCoords K) (pixel sub_pixel x y : Nat) :
    (∀ (_hp : pixel < 8) (_hs : sub_pixel < K),
      ∃ c', c.set pixel sub_pixel x y = some c' ∧
        (∀ i j, c'.src_o i j =
          if i.val = sub_pixel ∧ j.val = pixel then pixel else c.src_o i j) ∧
        (∀ i j, c'.src_x i j =
          if i.val = sub_pixel ∧ j.val = pixel then x else c.src_x i j) ∧
        (∀ i j, c'.src_y i j =
          if i.val = sub_pixel ∧ j.val = pixel then y else c.src_y i j)) ∧
    (¬(pixel < 8 ∧ sub_pixel < K) → c.set pixel sub_pixel x y = none) := by
  constructor
  · intro hp hs
    refine ⟨_, by unfold SsaaCoords.set; rw [dif_pos hp, dif_pos hs], ?_, ?_, ?_⟩ <;>
    · intro i j
      dsimp only
      by_cases hi : i = ⟨sub_pixel, hs⟩
      · subst hi
        by_cases hj : j = ⟨pixel, hp⟩
        · subst hj
          simp [updateFn]
        · have hj2 : ¬(j.val = pixel) := fun h => hj (Fin.ext h)
          simp [updateFn, hj, hj2]
      · have hi2 : ¬(i.val = sub_pixel) := fun h => hi (Fin.ext h)
        simp [updateFn, hi2, hi]
  · intro hcon
    unfold SsaaCoords.set
    by_cases hp : pixel < 8
    · rw [dif_pos hp, dif_neg (fun hs => hcon ⟨hp, hs⟩)]
    · rw [dif_neg hp]

/-- Witness for C9: a successful `set` stores the three values and
leaves other entries at the sentinel; both precondition violations
return the panic value. -/
theorem claim9_set_contract_witness :
    (∃ c', (SsaaCoords.new 4).set 2 1 7 9 = some c' ∧
      c'.src_o ⟨1, by omega⟩ ⟨2, by omega⟩ = 2 ∧
      c'.src_x ⟨1, by omega⟩ ⟨2, by omega⟩ = 7 ∧
      c'.src_y ⟨1, by omega⟩ ⟨2, by omega⟩ = 9 ∧
      c'.src_o ⟨0, by omega⟩ ⟨2, by omega⟩ = USIZEMAX) ∧
    (SsaaCoords.new 4).set 8 0 0 0 = none ∧
    (SsaaCoords.new 4).set 0 4 0 0 = none := by
  obtain ⟨c', hc, ho, hx, hy⟩ :=
    (claim9_set_contract (SsaaCoords.new 4) 2 1 7 9).1 (by omega) (by omega)
  refine ⟨⟨c', hc, ?_, ?_, ?_, ?_⟩,
    (claim9_set_contract (SsaaCoords.new 4) 8 0 0 0).2 (by omega),
    (claim9_set_contract (SsaaCoords.new 4) 0 4 0 0).2 (by omega)⟩
  · rw [ho]; norm_num
  · rw [hx]; norm_num
  · rw [hy]; norm_num
  · rw [ho]; norm_num [SsaaCoords.new]

/-- C10: on every table reachable through the public interface, each
`src_o` entry is the sentinel or its own column index; hence every
entry passing the bounds check indexes the accumulator in range (the
out-of-range branch is unreachable, the accumulation loop cannot
panic), and each output slot receives at most `K` samples. -/
theorem claim10_reachable_invariant {K : Nat} (c : SsaaCoords K) (hreach : Reachable c) :
    (∀ i j, c.src_o i j = USIZEMAX ∨ c.src_o i j = j.val) ∧
    (∀ (src : PixelArray) (i : Fin K) (j : Fin 8),
        usable c src i j = true → c.src_o i j = j.val ∧ c.src_o i j < 8) ∧
    (∀ src : PixelArray, ∃ pack cnts,
        Sequential.accumulate c src (fun _ => 0, fun _ => 0) = some (pack, cnts) ∧
        ∀ o, cnts o ≤ K) := by
  have hinv := reachable_inv hreach
  refine ⟨?_, ?_, ?_⟩
  · intro i j
    rcases hinv i j with h | ⟨h, _, _⟩
    · exact Or.inr h
    · exact Or.inl h
  · intro src i j hu
    have h := inv_usable_src_o hinv src i j hu
    exact ⟨h, by rw [h]; exact j.isLt⟩
  · intro src
    refine ⟨_, _, Sequential.accumulate_char c src
      (fun i j hu => inv_usable_src_o hinv src i j hu), ?_⟩
    intro o
    calc slotCount c src o % 65536 ≤ slotCount c src o := Nat.mod_le _ _
      _ ≤ K := slotCount_le c src o

/-- Witness for C10 on the freshly constructed table. -/
theorem claim10_reachable_invariant_witness :
    ∃ pack cnts,
      Sequential.accumulate (SsaaCoords.new 4) wSrc22 (fun _ => 0, fun _ => 0) =
        some (pack, cnts) ∧ ∀ o, cnts o ≤ 4 :=
  (claim10_reachable_invariant (SsaaCoords.new 4) Reachable.new).2.2 wSrc22
